import Mathlib

/-!
Verification development for the DSP utility primitives of
src/common/dsp/utilities/DSPUtils.h: the quadrature oscillator, the two
parameter smoothers (linear ramp and exponential lag), the interpolation
kernels, the fast tanh approximations, the amplitude curves and the window
functions.

Modelling conventions: rational-valued state machines model the float/double
fields where the claims speak of exact arithmetic and decidable evaluation is
wanted; real numbers model the transcendental functions (cos, sin, sqrt, pow,
log2).  C++ integer division (truncation toward zero) is rendered with
Int.tdiv.  Each stateful class becomes a structure plus state-passing
functions named after the member functions.
-/

namespace DSPUtils

/-- State of the lipol linear-ramp smoother: current value v, target new_v,
per-sample increment dv, stored reciprocal block size bs_inv, and the
first_run flag.  The template parameter first_run_checks is passed to each
operation as the Boolean frc. -/
structure lipol where
  v : ℚ
  new_v : ℚ
  dv : ℚ
  bs_inv : ℚ
  first_run : Bool
deriving DecidableEq, Repr

/-- lipol::setBlockSize(n): bs_inv = 1 / (T)n. -/
def lipol.setBlockSize (n : ℤ) (s : lipol) : lipol :=
  { s with bs_inv := 1 / (n : ℚ) }

/-- lipol::reset(): marks first_run when first_run_checks is on, zeroes
new_v, v and dv, and sets the block size.  In the source the block size is
the external constant BLOCK_SIZE (globals.h, outside src); the model takes
the block size as the parameter n.  When frc is off the source leaves
first_run unwritten and never reads it; the model stores frc there. -/
def lipol.reset (frc : Bool) (n : ℤ) : lipol :=
  lipol.setBlockSize n { v := 0, new_v := 0, dv := 0, bs_inv := 0, first_run := frc }

/-- lipol::newValue(f): v = new_v; new_v = f; on a pending first run
(checks enabled) v = f and the flag clears; then dv = (new_v - v) * bs_inv. -/
def lipol.newValue (frc : Bool) (f : ℚ) (s : lipol) : lipol :=
  let jump := frc && s.first_run
  let v1 := if jump then f else s.new_v
  { v := v1, new_v := f, dv := (f - v1) * s.bs_inv,
    bs_inv := s.bs_inv, first_run := if jump then false else s.first_run }

/-- lipol::process(): v += dv. -/
def lipol.process (s : lipol) : lipol :=
  { s with v := s.v + s.dv }

/-- lipol::instantize(): v = new_v; dv = 0. -/
def lipol.instantize (s : lipol) : lipol :=
  { s with v := s.new_v, dv := 0 }

/-- State of the lag exponential smoother: current value v, target target_v,
coefficient lp and its stored complement lpinv, and the first_run flag. -/
structure lag where
  v : ℚ
  target_v : ℚ
  lp : ℚ
  lpinv : ℚ
  first_run : Bool
deriving DecidableEq, Repr

/-- lag(T lp) constructor: stores lp, lpinv = 1 - lp, v = 0, target_v = 0,
first_run = true when checks are on (the model stores frc). -/
def lag.init (frc : Bool) (lp : ℚ) : lag :=
  { v := 0, target_v := 0, lp := lp, lpinv := 1 - lp, first_run := frc }

/-- lag() default constructor: lp = 0.004. -/
def lag.initDefault (frc : Bool) : lag :=
  lag.init frc (4 / 1000)

/-- lag::setRate(lp): lp and lpinv = 1 - lp. -/
def lag.setRate (lp : ℚ) (s : lag) : lag :=
  { s with lp := lp, lpinv := 1 - lp }

/-- lag::newValue(f): target_v = f; on a pending first run (checks enabled)
v = target_v and the flag clears. -/
def lag.newValue (frc : Bool) (f : ℚ) (s : lag) : lag :=
  if frc && s.first_run then
    { s with target_v := f, v := f, first_run := false }
  else
    { s with target_v := f }

/-- lag::startValue(f): target_v = f; v = f; clears a pending first run. -/
def lag.startValue (frc : Bool) (f : ℚ) (s : lag) : lag :=
  { s with target_v := f, v := f,
           first_run := if frc && s.first_run then false else s.first_run }

/-- lag::instantize(): v = target_v. -/
def lag.instantize (s : lag) : lag :=
  { s with v := s.target_v }

/-- lag::process(): v = v * lpinv + target_v * lp. -/
def lag.process (s : lag) : lag :=
  { s with v := s.v * s.lpinv + s.target_v * s.lp }

/-- cubic_ipol(y0,y1,y2,y3,mu): the 4-point cubic kernel with
a0 = y3 - y2 - y0 + y1, a1 = y0 - y1 - a0, a2 = y2 - y0, a3 = y1. -/
def cubic_ipol (y0 y1 y2 y3 mu : ℚ) : ℚ :=
  let mu2 := mu * mu
  let a0 := y3 - y2 - y0 + y1
  let a1 := y0 - y1 - a0
  let a2 := y2 - y0
  let a3 := y1
  a0 * mu * mu2 + a1 * mu2 + a2 * mu + a3

/-- A general cubic polynomial c3 x^3 + c2 x^2 + c1 x + c0, used to state
polynomial-reproduction properties of the interpolation kernels. -/
def cubicPoly (c3 c2 c1 c0 x : ℚ) : ℚ :=
  c3 * x ^ 3 + c2 * x ^ 2 + c1 * x + c0

/-- tanh_fast(double in): a = 2 / 3 with int operands (C++ truncating
division), denom = 1 + x + xx + a * x * xx for x = fabs(in), result
(in > 0 ? 1 : -1) * (1 - 1 / denom). -/
def tanh_fast_d (inp : ℚ) : ℚ :=
  let x := |inp|
  let a : ℚ := (((2 : ℤ).tdiv 3 : ℤ) : ℚ)
  let xx := x * x
  let denom := 1 + x + xx + a * x * xx
  (if inp > 0 then 1 else -1) * (1 - 1 / denom)

/-- tanh_fast(float in): same constant a = 2 / 3 in int arithmetic and the
same denominator; the source forms the reciprocal of denom with the SSE
approximate-reciprocal instruction, modelled here in exact arithmetic as the
exact reciprocal. -/
def tanh_fast_f (inp : ℚ) : ℚ :=
  let a : ℚ := (((2 : ℤ).tdiv 3 : ℤ) : ℚ)
  let x := |inp|
  let xx := x * x
  let denom := 1 + x + xx + a * x * xx
  let recip := 1 / denom
  (if inp > 0 then 1 else -1) * (1 - recip)

/-- tanh_faster1(double x): a = -1 / 3 and b = 2 / 15 with int operands
(C++ truncating division), y = 1 + xs * a + xs * xs * b, result y * x. -/
def tanh_faster1 (x : ℚ) : ℚ :=
  let a : ℚ := (((-1 : ℤ).tdiv 3 : ℤ) : ℚ)
  let b : ℚ := (((2 : ℤ).tdiv 15 : ℤ) : ℚ)
  let xs := x * x
  let y := 1 + xs * a + xs * xs * b
  y * x

/-- State of quadr_osc: public r, i and private rotation dr, di. -/
structure quadr_osc where
  r : ℝ
  i : ℝ
  dr : ℝ
  di : ℝ

/-- quadr_osc::set_rate(w): dr = cos w, di = sin w, then normalize (r, i)
by n = 1 / sqrt(r*r + i*i). -/
noncomputable def quadr_osc.set_rate (w : ℝ) (s : quadr_osc) : quadr_osc :=
  let n := 1 / Real.sqrt (s.r * s.r + s.i * s.i)
  { r := s.r * n, i := s.i * n, dr := Real.cos w, di := Real.sin w }

/-- quadr_osc::set_phase(w): r = sin w, i = -cos w. -/
noncomputable def quadr_osc.set_phase (w : ℝ) (s : quadr_osc) : quadr_osc :=
  { s with r := Real.sin w, i := -Real.cos w }

/-- quadr_osc::process(): r = dr*lr - di*li, i = dr*li + di*lr. -/
def quadr_osc.process (s : quadr_osc) : quadr_osc :=
  { s with r := s.dr * s.r - s.di * s.i, i := s.dr * s.i + s.di * s.r }

/-- Modelled from the spec: limit_range is declared in
vembertech/basic_dsp.h, outside src; the spec describes the calls as
clamping to the given range, so the model is the clamp of x to the
interval from lo to hi. -/
def limit_range (x lo hi : ℝ) : ℝ := max lo (min hi x)

/-- amp_to_linear(x): clamp to nonnegative, then cube. -/
def amp_to_linear (x : ℝ) : ℝ :=
  let x1 := max 0 x
  x1 * x1 * x1

/-- linear_to_amp(x): cube root of x clamped to the range from 1e-10 to 1. -/
noncomputable def linear_to_amp (x : ℝ) : ℝ :=
  limit_range x (1 / 10 ^ 10) 1 ^ ((1 : ℝ) / 3)

/-- amp_to_db(x): 18 * log2 x clamped to the range from -192 to 96. -/
noncomputable def amp_to_db (x : ℝ) : ℝ :=
  limit_range (18 * Real.logb 2 x) (-192) 96

/-- db_to_amp(x): 2 ^ (x / 18) clamped to the range from 0 to 2. -/
noncomputable def db_to_amp (x : ℝ) : ℝ :=
  limit_range ((2 : ℝ) ^ (x / 18)) 0 2

/-- hanning(i, n): 0 for i >= n, else 0.5 * (1 - cos(2 pi i / (n - 1))). -/
noncomputable def hanning (i n : ℤ) : ℝ :=
  if i ≥ n then 0
  else 0.5 * (1 - Real.cos (2 * Real.pi * (i : ℝ) / ((n : ℝ) - 1)))

/-- hamming(i, n): 0 for i >= n, else 0.54 - 0.46 * cos(2 pi i / (n - 1)). -/
noncomputable def hamming (i n : ℤ) : ℝ :=
  if i ≥ n then 0
  else 0.54 - 0.46 * Real.cos (2 * Real.pi * (i : ℝ) / ((n : ℝ) - 1))

end DSPUtils

namespace DSPUtils

/-- The real cube root given by rpow inverts cubing on nonnegative reals. -/
theorem cube_root_cube (x : ℝ) (h0 : 0 ≤ x) : (x ^ 3) ^ ((1 : ℝ) / 3) = x := by
  rw [← Real.rpow_natCast x 3, ← Real.rpow_mul h0]
  norm_num

/-- C8: the amplitude-curve round trips: linear_to_amp (amp_to_linear x)
differs from x by at most 1/1000 for x in [0, 1] (the difference is 0 except
below the cube root of the 1e-10 clamp), and db_to_amp (amp_to_db x) = x
exactly for x in the safe mid-range [1/100, 2] that avoids every clamp
boundary. -/
theorem C8_amplitude_round_trips :
    ∀ x : ℝ,
      (0 ≤ x → x ≤ 1 → |linear_to_amp (amp_to_linear x) - x| ≤ 1 / 1000) ∧
      (1 / 100 ≤ x → x ≤ 2 → db_to_amp (amp_to_db x) = x) := by
  intro x
  constructor
  · intro h0 h1
    have hcube : amp_to_linear x = x ^ 3 := by
      unfold amp_to_linear
      rw [max_eq_right h0]
      ring
    rw [hcube]
    unfold linear_to_amp limit_range
    have hmin : min 1 (x ^ 3) = x ^ 3 := min_eq_right (pow_le_one₀ h0 h1)
    rw [hmin]
    rcases le_or_lt (1 / 10 ^ 10 : ℝ) (x ^ 3) with hge | hlt
    · rw [max_eq_right hge, cube_root_cube x h0]
      simp
    · rw [max_eq_left hlt.le]
      have hxsmall : x < 1 / 1000 := by
        by_contra hc
        push_neg at hc
        have hle : (1 / 1000 : ℝ) ^ 3 ≤ x ^ 3 := pow_le_pow_left₀ (by norm_num) hc 3
        norm_num at hle
        linarith
      have hres_lt : ((1 : ℝ) / 10 ^ 10) ^ ((1 : ℝ) / 3) < 1 / 1000 := by
        have hmono : ((1 : ℝ) / 10 ^ 10) ^ ((1 : ℝ) / 3)
            < (((1 : ℝ) / 1000) ^ 3) ^ ((1 : ℝ) / 3) := by
          apply Real.rpow_lt_rpow (by norm_num) (by norm_num) (by norm_num)
        rwa [cube_root_cube (1 / 1000) (by norm_num)] at hmono
      have hres_nonneg : (0 : ℝ) ≤ ((1 : ℝ) / 10 ^ 10) ^ ((1 : ℝ) / 3) :=
        Real.rpow_nonneg (by norm_num) _
      rw [abs_le]
      constructor <;> linarith
  · intro hlo hhi
    have hx : (0 : ℝ) < x := by linarith
    have hb : (1 : ℝ) < 2 := by norm_num
    have hup : Real.logb 2 x ≤ 1 := by
      rw [Real.logb_le_iff_le_rpow hb hx, Real.rpow_one]
      exact hhi
    have hdown : (-7 : ℝ) ≤ Real.logb 2 x := by
      rw [Real.le_logb_iff_rpow_le hb hx]
      have h1 : ((2 : ℝ) ^ ((-7 : ℤ) : ℝ)) = (2 : ℝ) ^ (-7 : ℤ) := Real.rpow_intCast 2 (-7)
      have h2 : ((-7 : ℤ) : ℝ) = (-7 : ℝ) := by norm_num
      rw [← h2, h1]
      norm_num
      linarith
    have hdb : amp_to_db x = 18 * Real.logb 2 x := by
      unfold amp_to_db limit_range
      rw [min_eq_right (by linarith), max_eq_right (by linarith)]
    rw [hdb]
    unfold db_to_amp limit_range
    have hdiv : 18 * Real.logb 2 x / 18 = Real.logb 2 x := by ring
    rw [hdiv, Real.rpow_logb (by norm_num) (by norm_num) hx]
    rw [min_eq_right hhi, max_eq_right (le_of_lt hx)]

/-- Witness for C8 at x = 1 for both round trips. -/
theorem C8_amplitude_round_trips_witness :
    |linear_to_amp (amp_to_linear 1) - 1| ≤ 1 / 1000 ∧ db_to_amp (amp_to_db 1) = 1 :=
  ⟨(C8_amplitude_round_trips 1).1 (by norm_num) (by norm_num),
   (C8_amplitude_round_trips 1).2 (by norm_num) (by norm_num)⟩

/-- C10: tanh_faster1 is the identity function: its constants a = -1/3 and
b = 2/15 are evaluated with integer division and both equal 0, so the
polynomial factor y equals 1 and tanh_faster1 x = x for every input. -/
theorem C10_tanh_faster1_identity : ∀ x : ℚ, tanh_faster1 x = x := by
  intro x
  have ha : ((-1 : ℤ).tdiv 3) = 0 := by decide
  have hb : ((2 : ℤ).tdiv 15) = 0 := by decide
  simp [tanh_faster1, ha, hb]

/-- C7: in both tanh_fast overloads the constant a = 2/3 is evaluated with
integer division and equals 0, so the denominator is 1 + abs x + x^2 and the
result is sign(x) * (1 - 1 / (1 + abs x + x^2)) in exact arithmetic. -/
theorem C7_tanh_fast_integer_division :
    ∀ q : ℚ,
      tanh_fast_d q = (if q > 0 then 1 else -1) * (1 - 1 / (1 + |q| + q ^ 2)) ∧
      tanh_fast_f q = (if q > 0 then 1 else -1) * (1 - 1 / (1 + |q| + q ^ 2)) := by
  intro q
  have ha : ((2 : ℤ).tdiv 3) = 0 := by decide
  have habs : |q| * |q| = q ^ 2 := by
    rw [abs_mul_abs_self, sq]
  constructor <;> simp [tanh_fast_d, tanh_fast_f, ha, habs]

/-- C9: hanning(i, n) and hamming(i, n) return exactly 0 whenever i >= n. -/
theorem C9_window_zero_past_length :
    ∀ i n : ℤ, n ≤ i → hanning i n = 0 ∧ hamming i n = 0 := by
  intro i n h
  constructor <;> simp [hanning, hamming, h]

/-- Witness for C9 at i = 5, n = 3. -/
theorem C9_window_zero_past_length_witness :
    (3 : ℤ) ≤ 5 ∧ (hanning 5 3 = 0 ∧ hamming 5 3 = 0) :=
  ⟨by decide, C9_window_zero_past_length 5 3 (by decide)⟩

/-- Iterating lipol::process k times adds k times the increment to v and
leaves the other fields unchanged. -/
theorem lipol.iterate_process_affine (s : lipol) :
    ∀ k : ℕ, (lipol.process^[k] s).v = s.v + (k : ℚ) * s.dv ∧
      (lipol.process^[k] s).dv = s.dv := by
  intro k
  induction k with
  | zero => simp
  | succ k ih =>
    obtain ⟨h1, h2⟩ := ih
    rw [Function.iterate_succ_apply']
    refine ⟨?_, by simp [lipol.process, h2]⟩
    simp only [lipol.process, h1, h2]
    push_cast
    ring

/-- C1 (amended): for a setTarget call made when no first-run jump is
pending, after k of n advance() calls the current value is the exact linear
interpolation at position k/n between the prior target and T, and after n
calls it is exactly T; the stated concrete scenario (block length 4,
setTarget(1), four advances giving 1/4, 1/2, 3/4, 1 from current 0) holds
for the smoother with first-run checks disabled.  With first-run checks
enabled a freshly constructed smoother jumps to T on its first setTarget. -/
theorem C1_lipol_linear_ramp :
    (∀ (s : lipol) (T : ℚ) (n k : ℕ), s.first_run = false →
        s.bs_inv = 1 / (n : ℚ) → 0 < n → k ≤ n →
        (lipol.process^[k] (s.newValue true T)).v
          = s.new_v + ((k : ℚ) / (n : ℚ)) * (T - s.new_v)) ∧
    (∀ (s : lipol) (T : ℚ) (n : ℕ), s.first_run = false →
        s.bs_inv = 1 / (n : ℚ) → 0 < n →
        (lipol.process^[n] (s.newValue true T)).v = T) ∧
    ((lipol.process ((lipol.reset false 4).newValue false 1)).v = 1 / 4 ∧
     (lipol.process (lipol.process ((lipol.reset false 4).newValue false 1))).v = 1 / 2 ∧
     (lipol.process (lipol.process (lipol.process
        ((lipol.reset false 4).newValue false 1)))).v = 3 / 4 ∧
     (lipol.process (lipol.process (lipol.process (lipol.process
        ((lipol.reset false 4).newValue false 1))))).v = 1) := by
  have main : ∀ (s : lipol) (T : ℚ) (n k : ℕ), s.first_run = false →
      s.bs_inv = 1 / (n : ℚ) → 0 < n → k ≤ n →
      (lipol.process^[k] (s.newValue true T)).v
        = s.new_v + ((k : ℚ) / (n : ℚ)) * (T - s.new_v) := by
    intro s T n k hfr hbs _ _
    have h1 := (lipol.iterate_process_affine (s.newValue true T) k).1
    rw [h1]
    simp only [lipol.newValue, hfr, Bool.and_false, Bool.false_eq_true, if_false, hbs]
    ring
  refine ⟨main, ?_, ?_⟩
  · intro s T n hfr hbs hn
    rw [main s T n n hfr hbs hn le_rfl]
    have hne : (n : ℚ) ≠ 0 := Nat.cast_ne_zero.mpr hn.ne'
    field_simp
  · refine ⟨?_, ?_, ?_, ?_⟩ <;>
      norm_num [lipol.reset, lipol.setBlockSize, lipol.newValue, lipol.process]

/-- Witness for C1 at the state reset with block length 4 and first-run
checks off, target 1, n = 4, k = 2. -/
theorem C1_lipol_linear_ramp_witness :
    (lipol.process^[2] ((lipol.reset false 4).newValue true 1)).v
      = (lipol.reset false 4).new_v
        + (((2 : ℕ) : ℚ) / ((4 : ℕ) : ℚ)) * (1 - (lipol.reset false 4).new_v) :=
  C1_lipol_linear_ramp.1 (lipol.reset false 4) 1 4 2 rfl
    (by norm_num [lipol.reset, lipol.setBlockSize]) (by norm_num) (by norm_num)

/-- C1 counterexample: a freshly constructed smoother with first-run checks
enabled (the default template argument) jumps to the target on its first
setTarget, so the first advance() outputs 1, not 1/4. -/
theorem C1_lipol_first_run_counterexample :
    (lipol.process ((lipol.reset true 4).newValue true 1)).v = 1 ∧
    (lipol.process ((lipol.reset true 4).newValue true 1)).v ≠ 1 / 4 := by
  norm_num [lipol.reset, lipol.setBlockSize, lipol.newValue, lipol.process]

/-- C4 (amended): setTarget first snaps the current value to the previously
stored target and then computes the increment as (target - previous target)
times the stored reciprocal block length, so the increment is
(target - current) / blockLength only in the sense that current has just
been snapped to the previous target; advance() adds the increment once. -/
theorem C4_lipol_increment :
    (∀ (s : lipol) (f : ℚ), s.first_run = false →
        (s.newValue true f).v = s.new_v ∧
        (s.newValue true f).dv = (f - s.new_v) * s.bs_inv) ∧
    (∀ s : lipol, (lipol.process s).v = s.v + s.dv) := by
  constructor
  · intro s f hfr
    constructor <;> simp [lipol.newValue, hfr]
  · intro s
    rfl

/-- Witness for C4 at a mid-ramp state with v = 1/4 and prior target 1. -/
theorem C4_lipol_increment_witness :
    ((lipol.mk (1 / 4) 1 (1 / 4) (1 / 4) false).newValue true 2).v
        = (lipol.mk (1 / 4) 1 (1 / 4) (1 / 4) false).new_v ∧
      ((lipol.mk (1 / 4) 1 (1 / 4) (1 / 4) false).newValue true 2).dv
        = (2 - (lipol.mk (1 / 4) 1 (1 / 4) (1 / 4) false).new_v)
          * (lipol.mk (1 / 4) 1 (1 / 4) (1 / 4) false).bs_inv :=
  C4_lipol_increment.1 (lipol.mk (1 / 4) 1 (1 / 4) (1 / 4) false) 2 rfl

/-- C4 counterexample: after reaching the mid-ramp state with current 1/4
and prior target 1, setTarget(2) computes increment 1/4, not
(2 - current) / blockLength = 7/16. -/
theorem C4_lipol_increment_counterexample :
    ((lipol.process (((lipol.reset true 4).newValue true 0).newValue true 1)).newValue
        true 2).dv
      ≠ (2 - (lipol.process (((lipol.reset true 4).newValue true 0).newValue true 1)).v)
        * (lipol.process (((lipol.reset true 4).newValue true 0).newValue true 1)).bs_inv := by
  norm_num [lipol.reset, lipol.setBlockSize, lipol.newValue, lipol.process]

/-- Iterating lag::process leaves target_v, lp and lpinv unchanged and
scales the signed distance to the target by (1 - lp) each step, provided
the stored complement lpinv is consistent (lpinv = 1 - lp, as established
by every constructor and by setRate). -/
theorem lag.iterate_process_geometric (s : lag) (h : s.lpinv = 1 - s.lp) :
    ∀ t : ℕ, (lag.process^[t] s).v - s.target_v = (s.v - s.target_v) * (1 - s.lp) ^ t ∧
      (lag.process^[t] s).target_v = s.target_v ∧
      (lag.process^[t] s).lp = s.lp ∧ (lag.process^[t] s).lpinv = s.lpinv := by
  intro t
  induction t with
  | zero => simp
  | succ t ih =>
    obtain ⟨h1, h2, h3, h4⟩ := ih
    rw [Function.iterate_succ_apply']
    refine ⟨?_, by simp [lag.process, h2], by simp [lag.process, h3],
      by simp [lag.process, h4]⟩
    simp only [lag.process]
    rw [h2, h3, h4, h]
    have hv : (lag.process^[t] s).v
        = s.target_v + (s.v - s.target_v) * (1 - s.lp) ^ t := by linarith
    rw [hv]
    ring

/-- C2: lag::process computes v * (1 - k) + target * k for coefficient
k = lp; for a never-changing target the distance to the target after t
steps is exactly the initial distance times (1 - k)^t (for k at most 1, so
the factor is nonnegative), and the sequence moves monotonically toward the
target when the target lies on one side of the start (for k in [0, 1]). -/
theorem C2_lag_exponential :
    ∀ (s : lag) (t : ℕ), s.lpinv = 1 - s.lp →
      ((lag.process s).v = s.v * (1 - s.lp) + s.target_v * s.lp) ∧
      (s.lp ≤ 1 →
        |(lag.process^[t] s).v - s.target_v| = |s.v - s.target_v| * (1 - s.lp) ^ t) ∧
      (0 ≤ s.lp → s.lp ≤ 1 → s.v ≤ s.target_v →
        (lag.process^[t] s).v ≤ (lag.process^[t + 1] s).v) ∧
      (0 ≤ s.lp → s.lp ≤ 1 → s.target_v ≤ s.v →
        (lag.process^[t + 1] s).v ≤ (lag.process^[t] s).v) := by
  intro s t h
  have e1 := (lag.iterate_process_geometric s h t).1
  have e2 := (lag.iterate_process_geometric s h (t + 1)).1
  have key : (lag.process^[t + 1] s).v - (lag.process^[t] s).v
      = (s.target_v - s.v) * (1 - s.lp) ^ t * s.lp := by
    linear_combination e2 - e1
  refine ⟨?_, ?_, ?_, ?_⟩
  · simp only [lag.process, h]
  · intro hlp
    rw [e1, abs_mul, abs_pow, abs_of_nonneg (by linarith : (0:ℚ) ≤ 1 - s.lp)]
  · intro h0 h1lp hvt
    have hpow : (0:ℚ) ≤ (1 - s.lp) ^ t := pow_nonneg (by linarith) t
    nlinarith [mul_nonneg (mul_nonneg (by linarith : (0:ℚ) ≤ s.target_v - s.v) hpow) h0]
  · intro h0 h1lp hvt
    have hpow : (0:ℚ) ≤ (1 - s.lp) ^ t := pow_nonneg (by linarith) t
    nlinarith [mul_nonneg (mul_nonneg (by linarith : (0:ℚ) ≤ s.v - s.target_v) hpow) h0]

/-- Witness for C2 at v = 0, target 1, coefficient 1/2, t = 3. -/
theorem C2_lag_exponential_witness :
    |(lag.process^[3] (lag.mk 0 1 (1 / 2) (1 / 2) false)).v
        - (lag.mk 0 1 (1 / 2) (1 / 2) false).target_v|
      = |(lag.mk 0 1 (1 / 2) (1 / 2) false).v
          - (lag.mk 0 1 (1 / 2) (1 / 2) false).target_v|
        * (1 - (lag.mk 0 1 (1 / 2) (1 / 2) false).lp) ^ 3 :=
  (C2_lag_exponential (lag.mk 0 1 (1 / 2) (1 / 2) false) 3 (by norm_num)).2.1
    (by norm_num)

/-- C5 (amended): lag::newValue leaves the current value unchanged and only
stores the new target on every call except a pending first-run jump (checks
enabled), which copies the target into the current value; with first-run
checks disabled the current value is unchanged on every call. -/
theorem C5_lag_newValue_target_only :
    (∀ (s : lag) (f : ℚ), s.first_run = false →
        (s.newValue true f).v = s.v ∧ (s.newValue true f).target_v = f ∧
        (s.newValue true f).lp = s.lp ∧ (s.newValue true f).lpinv = s.lpinv) ∧
    (∀ (s : lag) (f : ℚ),
        (s.newValue false f).v = s.v ∧ (s.newValue false f).target_v = f) := by
  constructor
  · intro s f hfr
    refine ⟨?_, ?_, ?_, ?_⟩ <;> simp [lag.newValue, hfr]
  · intro s f
    constructor <;> simp [lag.newValue]

/-- Witness for C5 at a state with v = 3, target 5, first run already
done, new target 7. -/
theorem C5_lag_newValue_target_only_witness :
    ((lag.mk 3 5 (1 / 2) (1 / 2) false).newValue true 7).v
        = (lag.mk 3 5 (1 / 2) (1 / 2) false).v ∧
      ((lag.mk 3 5 (1 / 2) (1 / 2) false).newValue true 7).target_v = 7 ∧
      ((lag.mk 3 5 (1 / 2) (1 / 2) false).newValue true 7).lp
        = (lag.mk 3 5 (1 / 2) (1 / 2) false).lp ∧
      ((lag.mk 3 5 (1 / 2) (1 / 2) false).newValue true 7).lpinv
        = (lag.mk 3 5 (1 / 2) (1 / 2) false).lpinv :=
  C5_lag_newValue_target_only.1 (lag.mk 3 5 (1 / 2) (1 / 2) false) 7 rfl

/-- C5 counterexample: the very first newValue on a freshly
default-constructed lag (first-run checks enabled) changes the current
value from 0 to the target 1. -/
theorem C5_lag_newValue_counterexample :
    ((lag.initDefault true).newValue true 1).v ≠ (lag.initDefault true).v := by
  norm_num [lag.initDefault, lag.init, lag.newValue]

/-- Iterating quadr_osc::process preserves r^2 + i^2 exactly when the
rotation (dr, di) has unit magnitude, and never changes dr and di. -/
theorem quadr_osc.iterate_process_norm (s : quadr_osc) (h : s.dr ^ 2 + s.di ^ 2 = 1) :
    ∀ t : ℕ, (quadr_osc.process^[t] s).r ^ 2 + (quadr_osc.process^[t] s).i ^ 2
        = s.r ^ 2 + s.i ^ 2 ∧
      (quadr_osc.process^[t] s).dr = s.dr ∧ (quadr_osc.process^[t] s).di = s.di := by
  intro t
  induction t with
  | zero => simp
  | succ t ih =>
    obtain ⟨h1, h2, h3⟩ := ih
    rw [Function.iterate_succ_apply']
    refine ⟨?_, by simp [quadr_osc.process, h2], by simp [quadr_osc.process, h3]⟩
    simp only [quadr_osc.process]
    rw [h2, h3]
    linear_combination
      ((quadr_osc.process^[t] s).r ^ 2 + (quadr_osc.process^[t] s).i ^ 2) * h + h1

/-- quadr_osc::set_rate renormalizes (r, i) to unit magnitude whenever the
prior state is nonzero. -/
theorem quadr_osc.set_rate_norm (s : quadr_osc) (w : ℝ) (h : 0 < s.r ^ 2 + s.i ^ 2) :
    (s.set_rate w).r ^ 2 + (s.set_rate w).i ^ 2 = 1 := by
  simp only [quadr_osc.set_rate]
  have hq : s.r * s.r + s.i * s.i = s.r ^ 2 + s.i ^ 2 := by ring
  have hs : Real.sqrt (s.r * s.r + s.i * s.i) ^ 2 = s.r ^ 2 + s.i ^ 2 := by
    rw [hq]; exact Real.sq_sqrt h.le
  have hne : Real.sqrt (s.r * s.r + s.i * s.i) ≠ 0 := by
    refine ne_of_gt (Real.sqrt_pos.mpr ?_)
    rw [hq]; exact h
  have expand : (s.r * (1 / Real.sqrt (s.r * s.r + s.i * s.i))) ^ 2
      + (s.i * (1 / Real.sqrt (s.r * s.r + s.i * s.i))) ^ 2
      = (s.r ^ 2 + s.i ^ 2) / Real.sqrt (s.r * s.r + s.i * s.i) ^ 2 := by
    field_simp
  rw [expand, hs, div_self (ne_of_gt h)]

/-- C3: from any prior state with r^2 + i^2 > 0 and any rate w, set_rate(w)
renormalizes the state to the unit circle, and every subsequent process()
step preserves r^2 + i^2 exactly in exact arithmetic because the rotation
(cos w, sin w) has unit magnitude; likewise r^2 + i^2 stays exactly 1 for
any number of steps after a set_phase, the rotation having unit magnitude
from the preceding set_rate. -/
theorem C3_quadr_osc_unit_circle :
    ∀ (s : quadr_osc) (w : ℝ) (t : ℕ),
      (0 < s.r ^ 2 + s.i ^ 2 →
        (quadr_osc.process^[t] (s.set_rate w)).r ^ 2
          + (quadr_osc.process^[t] (s.set_rate w)).i ^ 2 = 1) ∧
      (s.dr ^ 2 + s.di ^ 2 = 1 →
        (quadr_osc.process^[t] (s.set_phase w)).r ^ 2
          + (quadr_osc.process^[t] (s.set_phase w)).i ^ 2 = 1) := by
  intro s w t
  constructor
  · intro h
    have hrot : (s.set_rate w).dr ^ 2 + (s.set_rate w).di ^ 2 = 1 := by
      simp only [quadr_osc.set_rate]
      rw [add_comm]
      exact Real.sin_sq_add_cos_sq w
    have hiter := (quadr_osc.iterate_process_norm (s.set_rate w) hrot t).1
    rw [hiter, quadr_osc.set_rate_norm s w h]
  · intro h
    have hrot : (s.set_phase w).dr ^ 2 + (s.set_phase w).di ^ 2 = 1 := by
      simp only [quadr_osc.set_phase]
      exact h
    have hnorm : (s.set_phase w).r ^ 2 + (s.set_phase w).i ^ 2 = 1 := by
      simp only [quadr_osc.set_phase]
      rw [neg_sq, Real.sin_sq_add_cos_sq]
    have hiter := (quadr_osc.iterate_process_norm (s.set_phase w) hrot t).1
    rw [hiter, hnorm]

/-- Witness for C3 at the state (r, i) = (3, 4) with rotation (1, 0),
rate 0 and two steps. -/
theorem C3_quadr_osc_unit_circle_witness :
    ((quadr_osc.process^[2] ((quadr_osc.mk 3 4 1 0).set_rate 0)).r ^ 2
        + (quadr_osc.process^[2] ((quadr_osc.mk 3 4 1 0).set_rate 0)).i ^ 2 = 1) ∧
    ((quadr_osc.process^[2] ((quadr_osc.mk 3 4 1 0).set_phase 0)).r ^ 2
        + (quadr_osc.process^[2] ((quadr_osc.mk 3 4 1 0).set_phase 0)).i ^ 2 = 1) :=
  ⟨(C3_quadr_osc_unit_circle (quadr_osc.mk 3 4 1 0) 0 2).1 (by norm_num),
   (C3_quadr_osc_unit_circle (quadr_osc.mk 3 4 1 0) 0 2).2 (by norm_num)⟩

/-- C6 counterexample: sampling the cubic p(x) = x^3 at -1, 0, 1, 2 and
evaluating the kernel at mu = 1/2 yields -1/4, while p(1/2) = 1/8, so the
kernel does not reproduce sampled cubic polynomials. -/
theorem C6_cubic_reproduction_counterexample :
    cubic_ipol (cubicPoly 1 0 0 0 (-1)) (cubicPoly 1 0 0 0 0) (cubicPoly 1 0 0 0 1)
        (cubicPoly 1 0 0 0 2) (1 / 2)
      ≠ cubicPoly 1 0 0 0 (1 / 2) := by
  norm_num [cubic_ipol, cubicPoly]

/-- C6 (amended): the 4-point cubic kernel agrees with a sampled cubic
polynomial only at the segment ends: at mu = 0 it returns p(0) and at
mu = 1 it returns p(1); it reproduces constant polynomials exactly for every
mu, but not general cubics. -/
theorem C6_cubic_ipol_segment_ends :
    ∀ c3 c2 c1 c0 mu : ℚ,
      cubic_ipol (cubicPoly c3 c2 c1 c0 (-1)) (cubicPoly c3 c2 c1 c0 0)
          (cubicPoly c3 c2 c1 c0 1) (cubicPoly c3 c2 c1 c0 2) 0
        = cubicPoly c3 c2 c1 c0 0 ∧
      cubic_ipol (cubicPoly c3 c2 c1 c0 (-1)) (cubicPoly c3 c2 c1 c0 0)
          (cubicPoly c3 c2 c1 c0 1) (cubicPoly c3 c2 c1 c0 2) 1
        = cubicPoly c3 c2 c1 c0 1 ∧
      cubic_ipol (cubicPoly 0 0 0 c0 (-1)) (cubicPoly 0 0 0 c0 0)
          (cubicPoly 0 0 0 c0 1) (cubicPoly 0 0 0 c0 2) mu
        = cubicPoly 0 0 0 c0 mu := by
  intro c3 c2 c1 c0 mu
  refine ⟨?_, ?_, ?_⟩ <;> · simp only [cubic_ipol, cubicPoly]; ring

end DSPUtils
